import Mathlib

/-!
Shallow embedding of the squadro-solver core (board state codec and dynamics,
chunked bitset file layout, reachability and retrograde win classification),
together with proofs of the specified properties.

Machine integers (`u64`/`usize`) are modelled as `Nat`; the one place where
64-bit wrap-around can matter (`set_id_part`'s read-modify-write of the ID) takes
an explicit `% 2 ^ 64`.  The Rust `while` loops and the recursions whose
termination rests on game-graph finiteness are modelled with explicit fuel and
an `Option` result, `none` marking fuel exhaustion.
-/

/-- Regular piece progression given `[player][piece][piece's position]`. -/
def REGULAR_MOVES : List (List (List Nat)) :=
  [[[1, 1, 1, 1, 1, 1, 3, 0, 3, 3, 2, 1, 0],
    [3, 0, 3, 3, 2, 1, 1, 1, 1, 1, 1, 1, 0],
    [2, 0, 2, 2, 2, 1, 2, 0, 2, 2, 2, 1, 0],
    [3, 0, 3, 3, 2, 1, 1, 1, 1, 1, 1, 1, 0],
    [1, 1, 1, 1, 1, 1, 3, 0, 3, 3, 2, 1, 0]],
   [[3, 0, 3, 3, 2, 1, 1, 1, 1, 1, 1, 1, 0],
    [1, 1, 1, 1, 1, 1, 3, 0, 3, 3, 2, 1, 0],
    [2, 0, 2, 2, 2, 1, 2, 0, 2, 2, 2, 1, 0],
    [1, 1, 1, 1, 1, 1, 3, 0, 3, 3, 2, 1, 0],
    [3, 0, 3, 3, 2, 1, 1, 1, 1, 1, 1, 1, 0]]]

/-- Initial regular piece progression given `[player][piece]`. -/
def FIRST_MOVES : List (List Nat) := [[1, 3, 2, 3, 1], [3, 1, 2, 1, 3]]

/-- Number of values of each mixed-radix ID part. -/
def ID_PART_SIZE : List Nat := [12, 12, 12, 12, 11, 11, 12, 12, 12, 12, 2]

/-- Factor by which each ID part is multiplied. -/
def ID_PART_FACTOR : List Nat :=
  [8671297536, 722608128, 60217344, 5018112, 456192, 41472, 3456, 288, 24, 2, 1]

/-- `2 ^ 64`, the modulus of Rust's `u64` arithmetic. -/
def U64_MOD : Nat := 2 ^ 64

/-- State of the game board, a wrapper around its `u64` ID. -/
structure BoardState where
  id : Nat
deriving DecidableEq, Repr

/-- In-bounds lookup in `REGULAR_MOVES` (Rust indexing panics out of bounds;
all call sites are proved in bounds). -/
def regular_move (player piece pos : Nat) : Nat :=
  ((REGULAR_MOVES.getD player []).getD piece []).getD pos 0

/-- In-bounds lookup in `FIRST_MOVES`. -/
def first_move (player piece : Nat) : Nat :=
  (FIRST_MOVES.getD player []).getD piece 0

/-- Return the ID part at the given `index`. -/
def get_id_part (s : BoardState) (index : Nat) : Nat :=
  (s.id / ID_PART_FACTOR.getD index 1) % ID_PART_SIZE.getD index 1

/-- Update the ID part at the given `index`. -/
def set_id_part (s : BoardState) (index value : Nat) : BoardState :=
  let f := ID_PART_FACTOR.getD index 1
  ⟨(s.id - f * get_id_part s index + f * value) % U64_MOD⟩

/-- Return the number of the next player (low bit of the ID). -/
def get_next_player (s : BoardState) : Nat := s.id &&& 1

/-- Change the number of the next player (`id ^= 1`). -/
def switch_next_player (s : BoardState) : BoardState := ⟨s.id ^^^ 1⟩

/-- Return position of `piece` belonging to `player`, decompressing the stored
digit by re-inserting the unreachable positions. -/
def get_piece_position (s : BoardState) (player piece : Nat) : Nat :=
  let position := get_id_part s (piece * 2 + player)
  if 0 < position then
    let fm := first_move player piece
    let position := if fm ≠ 1 then position + 1 else position
    if 6 < position ∧ fm ≠ 3 then position + 1 else position
  else
    position

/-- Place `piece` belonging to `player` at the given `position`, compressing
the position by skipping the unreachable positions. -/
def set_piece_position (s : BoardState) (player piece position : Nat) : BoardState :=
  let position :=
    if 1 < position then
      let fm := first_move player piece
      let position := if 7 < position ∧ fm ≠ 3 then position - 1 else position
      if fm ≠ 1 then position - 1 else position
    else position
  set_id_part s (piece * 2 + player) position

/-- The early-exit loop inside `is_ended`, iterating over the listed pieces
with the running count of movable pieces. -/
def is_ended_loop (s : BoardState) (last_player : Nat) : List Nat → Nat → Bool
  | [], _ => true
  | piece :: rest, movable_pieces =>
    if get_piece_position s last_player piece < 12 then
      if movable_pieces = 0 then is_ended_loop s last_player rest 1
      else false
    else is_ended_loop s last_player rest movable_pieces

/-- Is the game over? -/
def is_ended (s : BoardState) : Bool :=
  is_ended_loop s (1 - get_next_player s) [0, 1, 2, 3, 4] 0

/-- If two pieces are about to be on the same square, move the other player's
piece back; returns the updated state and whether a collision occurred. -/
def fix_possible_collision (s : BoardState) (player piece position : Nat) :
    BoardState × Bool :=
  if position % 6 = 0 then (s, false)
  else
    let other_player := 1 - player
    let other_piece := if position < 6 then position - 1 else 11 - position
    let other_position := get_piece_position s other_player other_piece
    if other_position % 6 = 0 then (s, false)
    else if other_position < 6 then
      if piece = other_position - 1 then
        (set_piece_position s other_player other_piece 0, true)
      else (s, false)
    else
      if piece = 11 - other_position then
        (set_piece_position s other_player other_piece 6, true)
      else (s, false)

/-- The step-by-step move loop of `get_next_state`, with explicit fuel: advance
`position` one square at a time, fixing collisions and extending the target by
one square after each collision. -/
def move_step_loop (player piece : Nat) :
    Nat → Nat → Nat → BoardState → Option (BoardState × Nat)
  | 0, position, target_position, s =>
    if position = target_position then some (s, position) else none
  | fuel + 1, position, target_position, s =>
    if position = target_position then some (s, position)
    else
      let position := position + 1
      let fixed := fix_possible_collision s player piece position
      let target_position := if fixed.2 then position + 1 else target_position
      move_step_loop player piece fuel position target_position fixed.1

/-- Create the board state in which the next player's `moved_piece` is moved
according to the game rules; `none` when the piece is invalid or retired. -/
def get_next_state (s : BoardState) (moved_piece : Nat) : Option BoardState :=
  if 4 < moved_piece then none
  else
    let player := get_next_player s
    let position := get_piece_position s player moved_piece
    if 11 < position then none
    else
      let new_state := switch_next_player s
      let target_position := position + regular_move player moved_piece position
      match move_step_loop player moved_piece 13 position target_position new_state with
      | none => none
      | some (final_state, final_position) =>
        some (set_piece_position final_state player moved_piece final_position)

/-- The successor states, in piece-index order, skipping invalid pieces. -/
def get_next_states (s : BoardState) : List BoardState :=
  (List.range 5).filterMap (fun piece => get_next_state s piece)

/-! ### Chunked bitset files (`file_operations.rs`)

The ZIP container is abstracted as an association list from chunk index to the
chunk's byte contents; `chunk_lookup` models looking an entry up by name. -/

def CHUNK_SIZE_BYTES : Nat := 1024 * 1024

def CHUNK_SIZE_BITS : Nat := CHUNK_SIZE_BYTES * 8

/-- Find the contents of chunk `chunk_id` in the archive. -/
def chunk_lookup : List (Nat × List Nat) → Nat → Option (List Nat)
  | [], _ => none
  | (k, data) :: rest, chunk_id =>
    if chunk_id = k then some data else chunk_lookup rest chunk_id

/-- Return the value of bit `state_id` from the chunked bit-set `chunks`. -/
def read_state_value (chunks : List (Nat × List Nat)) (state_id : Nat) : Bool :=
  let chunk_id := state_id / CHUNK_SIZE_BITS
  let bit_index := state_id % CHUNK_SIZE_BITS
  let byte_index := bit_index / 8
  match chunk_lookup chunks chunk_id with
  | none => false
  | some data =>
    if data.length ≤ byte_index then false
    else (data.getD byte_index 0 >>> (bit_index % 8)) &&& 1 == 1

/-- Write 1 to bit `bit_index` of the chunk buffer, growing it when necessary
(`chunk_buffer.resize(byte_index + 1, 0)` followed by the bitwise or). -/
def mark_bit (chunk_buffer : List Nat) (bit_index : Nat) : List Nat :=
  let byte_index := bit_index / 8
  let chunk_buffer :=
    if chunk_buffer.length ≤ byte_index then
      chunk_buffer ++ List.replicate (byte_index + 1 - chunk_buffer.length) 0
    else chunk_buffer
  chunk_buffer.set byte_index (chunk_buffer.getD byte_index 0 ||| 1 <<< (bit_index % 8))

/-- The loop of `write_states` over the ascending list of state IDs, carrying
the current chunk buffer, current chunk index and the chunks already written. -/
def write_states_loop :
    List Nat → List Nat → Nat → List (Nat × List Nat) → List (Nat × List Nat)
  | [], chunk_buffer, chunk_id, written =>
    if chunk_buffer.isEmpty then written else written ++ [(chunk_id, chunk_buffer)]
  | state_id :: rest, chunk_buffer, chunk_id, written =>
    if chunk_id < state_id / CHUNK_SIZE_BITS then
      write_states_loop rest (mark_bit [] (state_id % CHUNK_SIZE_BITS))
        (state_id / CHUNK_SIZE_BITS) (written ++ [(chunk_id, chunk_buffer)])
    else
      write_states_loop rest (mark_bit chunk_buffer (state_id % CHUNK_SIZE_BITS))
        chunk_id written

/-- Store the ascending list `states` as a chunked bit-set archive. -/
def write_states (states : List Nat) : List (Nat × List Nat) :=
  write_states_loop states [] (states.headD 0 / CHUNK_SIZE_BITS) []

/-- Does the chunk buffer hold bit `bit_index`?  This is the bit-extraction
logic of `read_state_value` applied to an in-memory chunk buffer. -/
def buffer_bit (buffer : List Nat) (bit_index : Nat) : Bool :=
  decide (bit_index / 8 < buffer.length) &&
    ((buffer.getD (bit_index / 8) 0 >>> (bit_index % 8)) &&& 1 == 1)

/-! ### Reachability and win classification (`generate.rs`)

`RoaringTreemap` is modelled as `Finset Nat`.  All recursions take fuel. -/

mutual

/-- Recursively (depth-first) mark states reachable from `current_state`. -/
def collect_reachable_rec :
    Nat → BoardState → Finset Nat → Option (Finset Nat)
  | 0, _, _ => none
  | fuel + 1, current_state, reachable_states =>
    if current_state.id ∈ reachable_states then some reachable_states
    else
      let reachable_states := insert current_state.id reachable_states
      if is_ended current_state then some reachable_states
      else collect_reachable_pieces fuel current_state 0 reachable_states

/-- The `for next_state in get_next_states()` loop of the reachability DFS. -/
def collect_reachable_pieces :
    Nat → BoardState → Nat → Finset Nat → Option (Finset Nat)
  | 0, _, _, _ => none
  | fuel + 1, current_state, piece, reachable_states =>
    if 4 < piece then some reachable_states
    else
      match get_next_state current_state piece with
      | none => collect_reachable_pieces fuel current_state (piece + 1) reachable_states
      | some next_state =>
        match collect_reachable_rec fuel next_state reachable_states with
        | none => none
        | some reachable_states =>
          collect_reachable_pieces fuel current_state (piece + 1) reachable_states

end

/-- Return all states reachable from at least one of the `init_states`. -/
def collect_reachable_states (fuel : Nat) :
    List BoardState → Finset Nat → Option (Finset Nat)
  | [], reachable_states => some reachable_states
  | st :: rest, reachable_states =>
    match collect_reachable_rec fuel st reachable_states with
    | none => none
    | some reachable_states => collect_reachable_states fuel rest reachable_states

mutual

/-- One recursive evaluation of `collect_winning_states_recursively`: returns
the winning player of `current_state` (`-1` for draw/unknown) and the updated
`remaining_states` and `seen_or_player_0_winning_states` bit-sets. -/
def cws_rec :
    Nat → BoardState → Finset Nat → Finset Nat →
      Option (Int × Finset Nat × Finset Nat)
  | 0, _, _, _ => none
  | fuel + 1, current_state, remaining_states, seen_or_w0 =>
    let x := current_state.id
    if x ∉ remaining_states then
      some (if x ∈ seen_or_w0 then 0 else 1, remaining_states, seen_or_w0)
    else if x ∈ seen_or_w0 then some (-1, remaining_states, seen_or_w0)
    else
      let seen_or_w0 := insert x seen_or_w0
      if is_ended current_state then
        let remaining_states := remaining_states.erase x
        if get_next_player current_state = 0 then
          some (1, remaining_states, seen_or_w0.erase x)
        else some (0, remaining_states, seen_or_w0)
      else
        cws_children fuel current_state 0
          (1 - (get_next_player current_state : Int)) remaining_states seen_or_w0

/-- The `for next_state in get_next_states()` loop of the win classification,
carrying `current_eval`.  When the pieces are exhausted it performs the
all-children-lost classification. -/
def cws_children :
    Nat → BoardState → Nat → Int → Finset Nat → Finset Nat →
      Option (Int × Finset Nat × Finset Nat)
  | 0, _, _, _, _, _ => none
  | fuel + 1, current_state, piece, current_eval, remaining_states, seen_or_w0 =>
    if 4 < piece then
      let next_player : Int := get_next_player current_state
      if current_eval = 1 - next_player then
        let remaining_states := remaining_states.erase current_state.id
        let seen_or_w0 :=
          if next_player = 0 then seen_or_w0.erase current_state.id else seen_or_w0
        some (current_eval, remaining_states, seen_or_w0)
      else some (current_eval, remaining_states, seen_or_w0)
    else
      match get_next_state current_state piece with
      | none => cws_children fuel current_state (piece + 1) current_eval
          remaining_states seen_or_w0
      | some next_state =>
        match cws_rec fuel next_state remaining_states seen_or_w0 with
        | none => none
        | some (next_state_eval, remaining_states, seen_or_w0) =>
          let next_player : Int := get_next_player current_state
          if next_state_eval = -1 then
            cws_children fuel current_state (piece + 1) (-1)
              remaining_states seen_or_w0
          else if next_state_eval = next_player then
            let remaining_states := remaining_states.erase current_state.id
            let seen_or_w0 :=
              if next_player ≠ 0 then seen_or_w0.erase current_state.id
              else seen_or_w0
            some (next_player, remaining_states, seen_or_w0)
          else
            cws_children fuel current_state (piece + 1) current_eval
              remaining_states seen_or_w0

end

/-- Minimum of two optional values, `none` acting as plus infinity. -/
def option_min (a b : Option Nat) : Option Nat :=
  match a, b with
  | none, b => b
  | some x, none => some x
  | some x, some y => some (min x y)

instance : Std.Commutative option_min :=
  ⟨by intro a b; cases a <;> cases b <;> simp [option_min, Nat.min_comm]⟩

instance : Std.Associative option_min :=
  ⟨by intro a b c; cases a <;> cases b <;> cases c <;>
    simp [option_min, Nat.min_assoc]⟩

/-- Get the next value in the treemap, starting from (and including) `lo`:
the smallest element at least `lo` (the roaring bitmap is iterated in
ascending key order). -/
def treemap_next_value (treemap : Finset Nat) (lo : Nat) : Option Nat :=
  (treemap.filter (fun x => lo ≤ x)).fold option_min none some

/-- The `while let` loop of `collect_winning_states_scan_remaining`. -/
def scan_remaining :
    Nat → Nat → Nat → Finset Nat → Finset Nat → Option (Finset Nat × Finset Nat)
  | 0, _, _, _, _ => none
  | fuel + 1, rec_fuel, next_from, remaining_states, seen_or_w0 =>
    match treemap_next_value remaining_states next_from with
    | none => some (remaining_states, seen_or_w0)
    | some state_id =>
      match cws_rec rec_fuel ⟨state_id⟩ remaining_states seen_or_w0 with
      | none => none
      | some (_, remaining_states, seen_or_w0) =>
        scan_remaining fuel rec_fuel (state_id + 1) remaining_states seen_or_w0

/-- `collect_winning_states_scan_remaining`: scan every remaining state, then
clean up `seen_or_w0` to only keep IDs of winning states. -/
def collect_winning_pass (scan_fuel rec_fuel : Nat)
    (remaining_states seen_or_w0 : Finset Nat) :
    Option (Finset Nat × Finset Nat) :=
  match scan_remaining scan_fuel rec_fuel 0 remaining_states seen_or_w0 with
  | none => none
  | some (remaining_states, seen_or_w0) =>
    some (remaining_states, seen_or_w0 \ remaining_states)

/-- The fixed-point iteration of `collect_winning_states`: run passes until no
state is removed from `remaining_states`; returns (player-0 wins, draws). -/
def collect_winning_states :
    Nat → Nat → Nat → Nat → Finset Nat → Finset Nat →
      Option (Finset Nat × Finset Nat)
  | 0, _, _, _, _, _ => none
  | iter_fuel + 1, scan_fuel, rec_fuel, previous_len, remaining_states, w0 =>
    match collect_winning_pass scan_fuel rec_fuel remaining_states w0 with
    | none => none
    | some (remaining_states, w0) =>
      if previous_len - remaining_states.card = 0 then some (w0, remaining_states)
      else
        collect_winning_states iter_fuel scan_fuel rec_fuel
          remaining_states.card remaining_states w0

/-- `generate`: reachable universe, player-0 wins, player-1 wins, draws.
Player-1 wins are the reachable states minus the final remaining states
(after they absorbed the player-0 wins), as in the source. -/
def generate (reach_fuel iter_fuel scan_fuel rec_fuel : Nat)
    (init_states : List BoardState) :
    Option (Finset Nat × Finset Nat × Finset Nat × Finset Nat) :=
  match collect_reachable_states reach_fuel init_states ∅ with
  | none => none
  | some reachable =>
    match collect_winning_states iter_fuel scan_fuel rec_fuel
        reachable.card reachable ∅ with
    | none => none
    | some (w0, draws) => some (reachable, w0, reachable \ (draws ∪ w0), draws)

/-- Invariant of the win-classification pass, relative to the reachable set
`R`: both bit-sets stay inside `R`, and every terminal state already removed
from `remaining_states` is in `seen_or_w0` exactly when player 1 is next (that
is, it was labelled a win for player 0). -/
def solver_inv (R remaining_states seen_or_w0 : Finset Nat) : Prop :=
  remaining_states ⊆ R ∧ seen_or_w0 ⊆ R ∧
    ∀ x ∈ R, is_ended ⟨x⟩ = true → x ∉ remaining_states →
      (x ∈ seen_or_w0 ↔ get_next_player ⟨x⟩ = 1)

/-- Within one scan pass: every state both still remaining and already seen is
non-terminal (a terminal state is removed the moment it is first seen). -/
def scan_inv (remaining_states seen_or_w0 : Finset Nat) : Prop :=
  ∀ y ∈ remaining_states, y ∈ seen_or_w0 → is_ended ⟨y⟩ = false

/-! ### Basic lemmas about the state codec -/

theorem BoardState.eta (s : BoardState) : (⟨s.id⟩ : BoardState) = s := rfl

theorem get_next_player_lt_two (s : BoardState) : get_next_player s < 2 := by
  have h : s.id &&& 1 = s.id % 2 := Nat.and_one_is_mod s.id
  simp only [get_next_player, h]
  omega

theorem get_id_part_lt (s : BoardState) (i : Nat) :
    get_id_part s i < ID_PART_SIZE.getD i 1 :=
  Nat.mod_lt _ (by
    match i with
    | 0 | 1 | 2 | 3 | 4 | 5 | 6 | 7 | 8 | 9 | 10 => decide
    | n + 11 => rw [List.getD_eq_default] <;> simp [ID_PART_SIZE])

theorem get_piece_position_le (s : BoardState) (player piece : Nat)
    (hpl : player < 2) (hpc : piece < 5) :
    get_piece_position s player piece ≤ 12 := by
  have h := get_id_part_lt s (piece * 2 + player)
  interval_cases player <;> interval_cases piece <;>
    · simp only [get_piece_position, first_move, FIRST_MOVES, ID_PART_SIZE] at h ⊢
      norm_num at h ⊢
      split_ifs <;> omega

theorem is_ended_loop_iff (s : BoardState) (lp : Nat) (l : List Nat) (movable : Nat)
    (hm : movable ≤ 1) :
    is_ended_loop s lp l movable =
      decide (l.countP (fun pc => get_piece_position s lp pc < 12) + movable ≤ 1) := by
  induction l generalizing movable with
  | nil => simp [is_ended_loop, hm]
  | cons pc rest ih =>
    by_cases hpos : get_piece_position s lp pc < 12
    · by_cases hmv : movable = 0
      · subst hmv
        rw [is_ended_loop, if_pos hpos, if_pos rfl, ih 1 (by omega)]
        simp [List.countP_cons, hpos]
      · rw [is_ended_loop, if_pos hpos, if_neg hmv]
        have : movable = 1 := by omega
        subst this
        simp [List.countP_cons, hpos]
    · rw [is_ended_loop, if_neg hpos, ih movable hm]
      simp [List.countP_cons, hpos]

theorem is_ended_iff (s : BoardState) :
    is_ended s = true ↔
      ((List.range 5).countP
        (fun pc => get_piece_position s (1 - get_next_player s) pc < 12)) ≤ 1 := by
  rw [is_ended, is_ended_loop_iff s _ _ 0 (by omega)]
  simp [List.range, List.range.loop]

/-! ### Lemmas about collision fixing and the move loop -/

theorem fix_possible_collision_snd_pivot (s : BoardState) (player piece position : Nat)
    (h : position % 6 = 0) :
    (fix_possible_collision s player piece position).2 = false := by
  simp [fix_possible_collision, h]

theorem fix_possible_collision_of_snd (s : BoardState) (player piece position : Nat)
    (h : (fix_possible_collision s player piece position).2 = true) :
    position % 6 ≠ 0 := by
  intro h6
  rw [fix_possible_collision_snd_pivot s player piece position h6] at h
  exact Bool.false_ne_true h

theorem move_step_loop_isSome (player piece : Nat) :
    ∀ (fuel position target : Nat) (s : BoardState),
      position ≤ target → target ≤ 12 → 12 - position < fuel →
      (move_step_loop player piece fuel position target s).isSome = true := by
  intro fuel
  induction fuel with
  | zero => omega
  | succ n ih =>
    intro position target s hpt ht hf
    by_cases he : position = target
    · simp [move_step_loop, he]
    · rw [move_step_loop, if_neg he]
      by_cases hcol : (fix_possible_collision s player piece (position + 1)).2
      · have h6 := fix_possible_collision_of_snd _ _ _ _ hcol
        simp only [hcol, if_true]
        exact ih (position + 1) (position + 2) _ (by omega) (by omega) (by omega)
      · simp only [hcol, if_false]
        exact ih (position + 1) target _ (by omega) (by omega) (by omega)

theorem regular_move_target_le_aux :
    ∀ player < 2, ∀ piece < 5, ∀ k < 12, k + regular_move player piece k ≤ 12 := by
  decide

theorem regular_move_target_le (player piece k : Nat)
    (hpl : player < 2) (hpc : piece < 5) (hk : k ≤ 11) :
    k + regular_move player piece k ≤ 12 :=
  regular_move_target_le_aux player hpl piece hpc k (by omega)

theorem get_next_state_isSome (s : BoardState) (moved_piece : Nat)
    (hmp : moved_piece ≤ 4)
    (hpos : get_piece_position s (get_next_player s) moved_piece ≤ 11) :
    (get_next_state s moved_piece).isSome = true := by
  rw [get_next_state, if_neg (by omega)]
  simp only
  rw [if_neg (by omega)]
  have htgt : get_piece_position s (get_next_player s) moved_piece +
      regular_move (get_next_player s) moved_piece
        (get_piece_position s (get_next_player s) moved_piece) ≤ 12 :=
    regular_move_target_le _ _ _ (get_next_player_lt_two s) (by omega) hpos
  have hsome := move_step_loop_isSome (get_next_player s) moved_piece 13
    (get_piece_position s (get_next_player s) moved_piece) _
    (switch_next_player s) (by omega) htgt (by omega)
  obtain ⟨⟨s2, p2⟩, hpair⟩ := Option.isSome_iff_exists.mp hsome
  rw [hpair]
  rfl

/-! ### Claims about the move dynamics -/

/-- Claim C4: during the step-by-step move, at a square `a` off the pivots, a
collision is detected exactly when the opposing piece owning the crossed lane
is off every pivot and its own crossed lane equals the moved piece's index; on
collision that piece is sent to 0 (outbound) or 6 (return), and the moving
piece's target becomes `a + 1`. -/
theorem claim_c4 (s : BoardState) (player piece a other_piece b : Nat)
    (hpl : player < 2) (ha : a ≤ 12) (h6 : a % 6 ≠ 0)
    (hop : other_piece = if a < 6 then a - 1 else 11 - a)
    (hbdef : b = get_piece_position s (1 - player) other_piece) :
    (((fix_possible_collision s player piece a).2 = true) ↔
      (b ≠ 0 ∧ b ≠ 6 ∧ b ≠ 12 ∧ (if b < 6 then b - 1 else 11 - b) = piece)) ∧
    ((fix_possible_collision s player piece a).2 = true →
      (fix_possible_collision s player piece a).1 =
        set_piece_position s (1 - player) other_piece (if b < 6 then 0 else 6)) ∧
    (∀ (fuel target : Nat) (s2 : BoardState), a - 1 ≠ target →
      (fix_possible_collision s2 player piece a).2 = true →
      move_step_loop player piece (fuel + 1) (a - 1) target s2 =
        move_step_loop player piece fuel a (a + 1)
          (fix_possible_collision s2 player piece a).1) := by
  have hople : other_piece < 5 := by rw [hop]; split <;> omega
  have hble : b ≤ 12 := by
    rw [hbdef]
    exact get_piece_position_le s (1 - player) other_piece (by omega) hople
  subst hbdef
  subst hop
  refine ⟨?_, ?_, ?_⟩
  · rw [fix_possible_collision, if_neg h6]
    simp only
    split_ifs with hb6 hblt heq heq <;>
      (constructor <;> intro hx <;> simp_all <;> omega)
  · intro hcol
    rw [fix_possible_collision, if_neg h6] at hcol ⊢
    simp only at hcol ⊢
    split_ifs at hcol ⊢ with hb6 hblt heq heq <;> simp_all
  · intro fuel target s2 hne hcol
    have ha1 : a - 1 + 1 = a := by omega
    rw [move_step_loop, if_neg hne]
    simp only [ha1, hcol, if_true]

/-- Witness for C4, at the board of the `collisions` unit test (player 1's
piece 2 stepping onto square 2, colliding with player 0's piece 1 at
progress 3). -/
theorem claim_c4_witness :
    (1 : Nat) < 2 ∧ (2 : Nat) ≤ 12 ∧ (2 : Nat) % 6 ≠ 0 ∧
    (1 : Nat) = (if (2 : Nat) < 6 then 2 - 1 else 11 - 2) ∧
    (3 : Nat) = get_piece_position ⟨17464429632⟩ (1 - 1) 1 ∧
    ((((fix_possible_collision ⟨17464429632⟩ 1 2 2).2 = true) ↔
        ((3 : Nat) ≠ 0 ∧ (3 : Nat) ≠ 6 ∧ (3 : Nat) ≠ 12 ∧
          (if (3 : Nat) < 6 then 3 - 1 else 11 - 3) = 2)) ∧
      ((fix_possible_collision ⟨17464429632⟩ 1 2 2).2 = true →
        (fix_possible_collision ⟨17464429632⟩ 1 2 2).1 =
          set_piece_position ⟨17464429632⟩ (1 - 1) 1 (if (3 : Nat) < 6 then 0 else 6)) ∧
      (∀ (fuel target : Nat) (s2 : BoardState), 2 - 1 ≠ target →
        (fix_possible_collision s2 1 2 2).2 = true →
        move_step_loop 1 2 (fuel + 1) (2 - 1) target s2 =
          move_step_loop 1 2 fuel 2 (2 + 1)
            (fix_possible_collision s2 1 2 2).1)) :=
  ⟨by decide, by decide, by decide, by decide, by decide,
   claim_c4 ⟨17464429632⟩ 1 2 2 1 3 (by decide) (by decide) (by decide)
     (by decide) (by decide)⟩

/-- Claim C5 (as stated, refuted here): the regular-move table does NOT give 0
squares of advance at position 6 — player 0's piece 0 advances 3 squares from
the far-side pivot. -/
theorem claim_c5_counterexample : regular_move 0 0 6 ≠ 0 := by decide

/-- Claim C5 (amended): for every player and piece the regular-move table
gives 0 squares of advance at position 12. -/
theorem claim_c5 : ∀ (player : Fin 2) (piece : Fin 5),
    regular_move player piece 12 = 0 := by decide

/-- Claim C6: the game is over exactly when the player who just moved
(`1 - next_player`) has at most one piece with progress below 12. -/
theorem claim_c6 (s : BoardState) :
    is_ended s = true ↔
      ((List.range 5).countP
        (fun pc => get_piece_position s (1 - get_next_player s) pc < 12)) ≤ 1 := by
  rw [is_ended, is_ended_loop_iff s _ _ 0 (by omega)]
  simp [List.range, List.range.loop]

/-- Claim C8: `get_next_state` returns `none` exactly when the piece index is
out of range or the next player's piece is already at progress 12.  (The input
state itself is untouched: the embedding is purely functional, mirroring the
Rust code's `clone` of the state before mutation.) -/
theorem claim_c8 (s : BoardState) (moved_piece : Nat) :
    get_next_state s moved_piece = none ↔
      (4 < moved_piece ∨ get_piece_position s (get_next_player s) moved_piece = 12) := by
  constructor
  · intro h
    by_contra hc
    push_neg at hc
    obtain ⟨h4, h12⟩ := hc
    have hle := get_piece_position_le s (get_next_player s) moved_piece
      (get_next_player_lt_two s) (by omega)
    have hsome := get_next_state_isSome s moved_piece (by omega) (by omega)
    rw [h] at hsome
    simp at hsome
  · intro h
    by_cases h4 : 4 < moved_piece
    · rw [get_next_state, if_pos h4]
    · rcases h with h | h
      · exact absurd h h4
      · rw [get_next_state, if_neg h4]
        simp only
        rw [if_pos (by omega)]

/-- Claim C9 (as stated, refuted here): in the state where player 0 (to move)
has all pieces retired while player 1 has none, the game is not ended and
pieces with progress < 12 exist, yet there is no successor. -/
theorem claim_c9_counterexample :
    is_ended ⟨96051263880⟩ = false ∧
    (∃ player piece, player < 2 ∧ piece < 5 ∧
      get_piece_position ⟨96051263880⟩ player piece < 12) ∧
    get_next_states ⟨96051263880⟩ = [] :=
  ⟨by decide, ⟨1, 0, by decide, by decide, by decide⟩, by decide⟩

/-- Claim C9 (amended): at least one successor exists whenever the game is not
ended and some piece OF THE NEXT PLAYER has progress < 12. -/
theorem claim_c9 (s : BoardState) (h : is_ended s = false)
    (hmov : ∃ piece, piece < 5 ∧
      get_piece_position s (get_next_player s) piece < 12) :
    get_next_states s ≠ [] := by
  obtain ⟨piece, hpc, hpos⟩ := hmov
  intro hnil
  have hsome := get_next_state_isSome s piece (by omega) (by omega)
  rw [get_next_states] at hnil
  rw [List.filterMap_eq_nil_iff] at hnil
  have := hnil piece (by simp [List.mem_range]; omega)
  rw [this] at hsome
  simp at hsome

/-- Witness for the amended C9, at the fresh game with player 0 to move. -/
theorem claim_c9_witness :
    is_ended ⟨0⟩ = false ∧
    (∃ piece, piece < 5 ∧ get_piece_position ⟨0⟩ (get_next_player ⟨0⟩) piece < 12) ∧
    get_next_states ⟨0⟩ ≠ [] :=
  ⟨by decide, ⟨0, by decide, by decide⟩,
   claim_c9 ⟨0⟩ (by decide) ⟨0, by decide, by decide⟩⟩

/-- Claim C10: for every 64-bit ID — legal position or not — the decoded piece
progress is always in `0..=12`, and `get_next_state`'s step loop (fuel 13, one
unit per board square) terminates with a successor whenever the guards pass. -/
theorem claim_c10 (id player piece : Nat) (hpl : player < 2) (hpc : piece < 5) :
    get_piece_position ⟨id⟩ player piece ≤ 12 ∧
    (∀ moved_piece, moved_piece ≤ 4 →
      get_piece_position ⟨id⟩ (get_next_player ⟨id⟩) moved_piece ≤ 11 →
      (get_next_state ⟨id⟩ moved_piece).isSome = true) :=
  ⟨get_piece_position_le _ _ _ hpl hpc,
   fun mp hmp hpos => get_next_state_isSome _ mp hmp hpos⟩

/-- Witness for C10 at ID 0, player 0, piece 0. -/
theorem claim_c10_witness :
    (0 : Nat) < 2 ∧ (0 : Nat) < 5 ∧
      (get_piece_position ⟨0⟩ 0 0 ≤ 12 ∧
       (∀ moved_piece, moved_piece ≤ 4 →
        get_piece_position ⟨0⟩ (get_next_player ⟨0⟩) moved_piece ≤ 11 →
        (get_next_state ⟨0⟩ moved_piece).isSome = true)) :=
  ⟨by decide, by decide, claim_c10 0 0 0 (by decide) (by decide)⟩

/-! ### The progress-compression round trip (C3) -/

theorem digit_set_get (id F S v : Nat) (hF : 0 < F) (hv : v < S)
    (hno : id - F * (id / F % S) + F * v < 2 ^ 64) :
    (id - F * (id / F % S) + F * v) % 2 ^ 64 / F % S = v := by
  have hqr := Nat.div_add_mod id F
  have hab := Nat.div_add_mod (id / F) S
  have key : id - F * (id / F % S) + F * v = F * (S * (id / F / S) + v) + id % F := by
    have h1 : F * (id / F) = F * (S * (id / F / S)) + F * (id / F % S) := by
      rw [← Nat.mul_add, hab]
    have h2 : id = F * (S * (id / F / S)) + F * (id / F % S) + id % F := by
      rw [← h1, hqr]
    rw [Nat.mul_add F (S * (id / F / S)) v]
    omega
  rw [key] at hno ⊢
  rw [Nat.mod_eq_of_lt hno, Nat.mul_add_div hF]
  rw [Nat.div_eq_of_lt (Nat.mod_lt _ hF), Nat.add_zero, Nat.mul_add_mod]
  exact Nat.mod_eq_of_lt hv

theorem get_set_id_part_self (s : BoardState) (i v : Nat) (hi : i < 11)
    (hv : v < ID_PART_SIZE.getD i 1) (hid : s.id < 104055570432) :
    get_id_part (set_id_part s i v) i = v := by
  interval_cases i <;>
    · simp only [get_id_part, set_id_part, ID_PART_FACTOR, ID_PART_SIZE, U64_MOD] at hv ⊢
      norm_num at hv ⊢
      first
        | exact digit_set_get _ _ _ _ (by norm_num) hv (by omega)
        | omega

/-- Claim C3: for every valid state, player, piece, and reachable progress `p`
(excluding 1 unless the piece's first-move strength is 1 and 7 unless it is 3),
setting and then reading the piece's position returns exactly `p`. -/
theorem claim_c3 (s : BoardState) (player piece p : Nat)
    (hid : s.id < 104055570432) (hpl : player < 2) (hpc : piece < 5)
    (hp : p ≤ 12) (h1 : p = 1 → first_move player piece = 1)
    (h7 : p = 7 → first_move player piece = 3) :
    get_piece_position (set_piece_position s player piece p) player piece = p := by
  interval_cases player <;> interval_cases piece <;>
    · simp only [first_move, FIRST_MOVES] at h1 h7
      norm_num at h1 h7
      simp only [set_piece_position, get_piece_position, first_move, FIRST_MOVES]
      norm_num
      rw [get_set_id_part_self s _ _ ?hi ?hv hid]
      case hi => norm_num
      case hv => simp only [ID_PART_SIZE]; norm_num; split_ifs <;> omega
      split_ifs <;> omega

/-- Witness for C3 at the fresh game, player 0, piece 0, progress 5. -/
theorem claim_c3_witness :
    (0 : Nat) < 104055570432 ∧ (0 : Nat) < 2 ∧ (0 : Nat) < 5 ∧ (5 : Nat) ≤ 12 ∧
    ((5 : Nat) = 1 → first_move 0 0 = 1) ∧ ((5 : Nat) = 7 → first_move 0 0 = 3) ∧
    get_piece_position (set_piece_position ⟨0⟩ 0 0 5) 0 0 = 5 :=
  ⟨by decide, by decide, by decide, by decide, by decide, by decide,
   claim_c3 ⟨0⟩ 0 0 5 (by decide) (by decide) (by decide) (by decide)
     (by decide) (by decide)⟩

/-! ### Bitset round trip (C1) -/

theorem shift_and_one_eq_testBit (x r : Nat) :
    ((x >>> r) &&& 1 == 1) = x.testBit r := by
  rw [Nat.and_one_is_mod, Nat.shiftRight_eq_div_pow, Nat.testBit_to_div_mod]
  by_cases h : x / 2 ^ r % 2 = 1 <;> simp [h]

theorem getD_of_length_le {l : List Nat} {i : Nat} (h : l.length ≤ i) :
    l.getD i 0 = 0 :=
  List.getD_eq_default l 0 h

theorem mark_bit_length (buf : List Nat) (b : Nat) :
    (mark_bit buf b).length = max buf.length (b / 8 + 1) := by
  rw [mark_bit]
  split <;> simp_all [List.length_set] <;> omega

theorem mark_bit_getD_self (buf : List Nat) (b : Nat) :
    (mark_bit buf b).getD (b / 8) 0 = buf.getD (b / 8) 0 ||| 2 ^ (b % 8) := by
  rw [mark_bit]
  have h1 : (1 : Nat) <<< (b % 8) = 2 ^ (b % 8) := by
    rw [Nat.shiftLeft_eq, one_mul]
  split
  case isTrue hle =>
    have hlen : b / 8 < (buf ++ List.replicate (b / 8 + 1 - buf.length) 0).length := by
      simp [List.length_replicate]; omega
    have hz : (buf ++ List.replicate (b / 8 + 1 - buf.length) 0)[b / 8]?.getD 0 = 0 := by
      rw [List.getElem?_append_right hle, List.getElem?_replicate]
      split <;> simp
    rw [List.getD_eq_getElem?_getD, List.getElem?_set_self hlen]
    simp only [Option.getD_some]
    rw [List.getD_eq_getElem?_getD, hz, getD_of_length_le hle, h1]
  case isFalse hlt =>
    have hlen : b / 8 < buf.length := by omega
    rw [List.getD_eq_getElem?_getD, List.getElem?_set_self hlen]
    simp only [Option.getD_some]
    rw [List.getD_eq_getElem?_getD, h1]

theorem mark_bit_getD_ne (buf : List Nat) (b j : Nat) (h : j ≠ b / 8) :
    (mark_bit buf b).getD j 0 = buf.getD j 0 := by
  rw [mark_bit]
  split
  case isTrue hle =>
    rw [List.getD_eq_getElem?_getD, List.getElem?_set_ne (fun he => h he.symm)]
    by_cases hj : j < buf.length
    · rw [List.getElem?_append, if_pos hj, ← List.getD_eq_getElem?_getD]
    · rw [List.getElem?_append_right (by omega), List.getElem?_replicate,
        getD_of_length_le (by omega : buf.length ≤ j)]
      split <;> simp
  case isFalse hlt =>
    rw [List.getD_eq_getElem?_getD, List.getElem?_set_ne (fun he => h he.symm),
      ← List.getD_eq_getElem?_getD]

theorem buffer_bit_nil (b : Nat) : buffer_bit [] b = false := by
  simp [buffer_bit]

theorem buffer_bit_mark (buf : List Nat) (b bq : Nat) :
    buffer_bit (mark_bit buf b) bq = ((bq == b) || buffer_bit buf bq) := by
  by_cases hj : bq / 8 = b / 8
  · by_cases hr : bq % 8 = b % 8
    · have hbb : bq = b := by omega
      subst hbb
      simp only [buffer_bit, mark_bit_length, mark_bit_getD_self,
        shift_and_one_eq_testBit, Nat.testBit_or, Nat.testBit_two_pow_self]
      simp [Nat.lt_succ_iff]
    · simp only [buffer_bit, mark_bit_length, hj, mark_bit_getD_self,
        shift_and_one_eq_testBit, Nat.testBit_or]
      rw [Nat.testBit_two_pow_of_ne (fun he => hr he.symm)]
      have hne : (bq == b) = false := by simp; omega
      rw [hne]
      by_cases hlen : b / 8 < buf.length
      · rw [decide_eq_true (show b / 8 < max buf.length (b / 8 + 1) by
            rw [lt_max_iff]; omega),
          decide_eq_true hlen]
        simp
      · rw [getD_of_length_le (by omega)]
        simp [Nat.zero_testBit]
  · have hne : (bq == b) = false := by simp; omega
    rw [hne, Bool.false_or]
    simp only [buffer_bit, mark_bit_length, mark_bit_getD_ne buf b _ hj,
      shift_and_one_eq_testBit]
    by_cases hlen : bq / 8 < buf.length
    · rw [decide_eq_true (show bq / 8 < max buf.length (b / 8 + 1) by
          rw [lt_max_iff]; omega),
        decide_eq_true hlen]
    · rw [getD_of_length_le (by omega)]
      simp [Nat.zero_testBit]

theorem read_state_value_eq (chunks : List (Nat × List Nat)) (x : Nat) :
    read_state_value chunks x =
      match chunk_lookup chunks (x / CHUNK_SIZE_BITS) with
      | none => false
      | some data => buffer_bit data (x % CHUNK_SIZE_BITS) := by
  rw [read_state_value]
  cases chunk_lookup chunks (x / CHUNK_SIZE_BITS) with
  | none => rfl
  | some data =>
    simp only [buffer_bit]
    by_cases h : data.length ≤ x % CHUNK_SIZE_BITS / 8
    · rw [if_pos h, decide_eq_false (by omega)]
      simp
    · rw [if_neg h, decide_eq_true (by omega)]
      simp

theorem chunk_lookup_append_left (l1 l2 : List (Nat × List Nat)) (q : Nat)
    (d : List Nat) (h : chunk_lookup l1 q = some d) :
    chunk_lookup (l1 ++ l2) q = some d := by
  induction l1 with
  | nil => simp [chunk_lookup] at h
  | cons kv rest ih =>
    obtain ⟨k, data⟩ := kv
    rw [chunk_lookup] at h
    rw [List.cons_append, chunk_lookup]
    split at h <;> simp_all [ih]

theorem chunk_lookup_append_right (l1 l2 : List (Nat × List Nat)) (q : Nat)
    (h : chunk_lookup l1 q = none) :
    chunk_lookup (l1 ++ l2) q = chunk_lookup l2 q := by
  induction l1 with
  | nil => simp [chunk_lookup]
  | cons kv rest ih =>
    obtain ⟨k, data⟩ := kv
    rw [chunk_lookup] at h
    rw [List.cons_append, chunk_lookup]
    split at h <;> simp_all [ih]

theorem chunk_eq_of_div_mod {x y : Nat}
    (hd : x / CHUNK_SIZE_BITS = y / CHUNK_SIZE_BITS)
    (hm : x % CHUNK_SIZE_BITS = y % CHUNK_SIZE_BITS) : x = y := by
  simp only [CHUNK_SIZE_BITS, CHUNK_SIZE_BYTES] at hd hm
  omega

theorem chunk_div_le {x y : Nat} (h : x ≤ y) :
    x / CHUNK_SIZE_BITS ≤ y / CHUNK_SIZE_BITS := Nat.div_le_div_right h

theorem chunk_beq_eq_decide {x y : Nat} (hd : x / CHUNK_SIZE_BITS = y / CHUNK_SIZE_BITS) :
    (x % CHUNK_SIZE_BITS == y % CHUNK_SIZE_BITS) = decide (x = y) := by
  by_cases hx : x = y
  · subst hx; simp
  · have hm : x % CHUNK_SIZE_BITS ≠ y % CHUNK_SIZE_BITS :=
      fun hm => hx (chunk_eq_of_div_mod hd hm)
    simp [hx, hm]

theorem write_loop_read (S : List Nat) :
    ∀ (buf : List Nat) (k : Nat) (acc : List (Nat × List Nat)),
      List.Pairwise (· < ·) S →
      (∀ id ∈ S, k ≤ id / CHUNK_SIZE_BITS) →
      (∀ q, k ≤ q → chunk_lookup acc q = none) →
      ∀ x, read_state_value (write_states_loop S buf k acc) x =
        if x / CHUNK_SIZE_BITS < k then read_state_value acc x
        else if x / CHUNK_SIZE_BITS = k then
          (buffer_bit buf (x % CHUNK_SIZE_BITS) || decide (x ∈ S))
        else decide (x ∈ S) := by
  induction S with
  | nil =>
    intro buf k acc _ _ hacc x
    rw [write_states_loop]
    split
    case isTrue hbuf =>
      have hbufe : buf = [] := List.isEmpty_iff.mp hbuf
      subst hbufe
      by_cases h1 : x / CHUNK_SIZE_BITS < k
      · rw [if_pos h1]
      · rw [if_neg h1, read_state_value_eq, hacc _ (by omega)]
        by_cases h2 : x / CHUNK_SIZE_BITS = k
        · rw [if_pos h2]
          simp [buffer_bit_nil]
        · rw [if_neg h2]
          simp
    case isFalse hbuf =>
      by_cases h1 : x / CHUNK_SIZE_BITS < k
      · rw [if_pos h1, read_state_value_eq, read_state_value_eq]
        cases hl : chunk_lookup acc (x / CHUNK_SIZE_BITS) with
        | some d => rw [chunk_lookup_append_left _ _ _ _ hl]
        | none =>
          rw [chunk_lookup_append_right _ _ _ hl, chunk_lookup, if_neg (by omega),
            chunk_lookup]
      · rw [if_neg h1, read_state_value_eq,
          chunk_lookup_append_right _ _ _ (hacc _ (by omega)), chunk_lookup]
        by_cases h2 : x / CHUNK_SIZE_BITS = k
        · rw [if_pos h2, if_pos h2]
          simp
        · rw [if_neg h2, if_neg h2, chunk_lookup]
          simp
  | cons id rest ih =>
    intro buf k acc hpair hmin hacc x
    rw [List.pairwise_cons] at hpair
    obtain ⟨hid_lt, hpair2⟩ := hpair
    have hk_id : k ≤ id / CHUNK_SIZE_BITS := hmin id (List.mem_cons_self id rest)
    rw [write_states_loop]
    split
    case isTrue hgt =>
      rw [ih (mark_bit [] (id % CHUNK_SIZE_BITS)) (id / CHUNK_SIZE_BITS)
        (acc ++ [(k, buf)]) hpair2
        (fun y hy => chunk_div_le (le_of_lt (hid_lt y hy)))
        (fun q hq => by
          rw [chunk_lookup_append_right _ _ _ (hacc q (by omega)), chunk_lookup,
            if_neg (by omega), chunk_lookup]) x]
      by_cases h1 : x / CHUNK_SIZE_BITS < k
      · rw [if_pos (by omega), if_pos h1, read_state_value_eq, read_state_value_eq]
        cases hl : chunk_lookup acc (x / CHUNK_SIZE_BITS) with
        | some d => rw [chunk_lookup_append_left _ _ _ _ hl]
        | none =>
          rw [chunk_lookup_append_right _ _ _ hl, chunk_lookup, if_neg (by omega),
            chunk_lookup]
      · by_cases h2 : x / CHUNK_SIZE_BITS = k
        · rw [if_pos (by omega), if_neg h1, if_pos h2, read_state_value_eq,
            chunk_lookup_append_right _ _ _ (hacc _ (by omega)), chunk_lookup,
            if_pos h2]
          have hxid : x ∉ id :: rest := by
            intro hx
            rcases List.mem_cons.mp hx with he | hx
            · rw [he] at h2
              omega
            · have h4 := chunk_div_le (le_of_lt (hid_lt x hx))
              omega
          simp [hxid]
        · by_cases h3 : x / CHUNK_SIZE_BITS = id / CHUNK_SIZE_BITS
          · rw [if_neg (by omega), if_pos h3, if_neg h1, if_neg h2,
              buffer_bit_mark, buffer_bit_nil, chunk_beq_eq_decide h3]
            simp [List.mem_cons]
          · have hxid : x ∉ id :: rest → decide (x ∈ id :: rest) = false :=
              fun hn => decide_eq_false hn
            by_cases h4 : x / CHUNK_SIZE_BITS < id / CHUNK_SIZE_BITS
            · rw [if_pos h4, if_neg h1, if_neg h2, read_state_value_eq,
                chunk_lookup_append_right _ _ _ (hacc _ (by omega)), chunk_lookup,
                if_neg h2, chunk_lookup]
              rw [hxid (by
                intro hx
                rcases List.mem_cons.mp hx with he | hx
                · exact h3 (he ▸ rfl)
                · have h5 := chunk_div_le (le_of_lt (hid_lt x hx))
                  omega)]
            · rw [if_neg h4, if_neg h3, if_neg h1, if_neg h2]
              have hmem : x ∈ id :: rest ↔ x ∈ rest := by
                constructor
                · intro hx
                  rcases List.mem_cons.mp hx with he | hx
                  · exact absurd (he ▸ rfl) h3
                  · exact hx
                · exact fun hx => List.mem_cons_of_mem id hx
              simp [hmem]
    case isFalse hgt =>
      have hek : id / CHUNK_SIZE_BITS = k := by omega
      rw [ih (mark_bit buf (id % CHUNK_SIZE_BITS)) k acc hpair2
        (fun y hy => hek ▸ chunk_div_le (le_of_lt (hid_lt y hy))) hacc x]
      by_cases h1 : x / CHUNK_SIZE_BITS < k
      · rw [if_pos h1, if_pos h1]
      · by_cases h2 : x / CHUNK_SIZE_BITS = k
        · rw [if_neg h1, if_neg h1, if_pos h2, if_pos h2, buffer_bit_mark,
            chunk_beq_eq_decide (by omega)]
          simp only [List.mem_cons]
          by_cases hx1 : x = id <;> by_cases hx2 : x ∈ rest <;> simp [hx1, hx2]
        · rw [if_neg h1, if_neg h1, if_neg h2, if_neg h2]
          have hxid : x ∈ id :: rest ↔ x ∈ rest := by
            constructor
            · intro hx
              rcases List.mem_cons.mp hx with rfl | hx
              · omega
              · exact hx
            · exact fun hx => List.mem_cons_of_mem id hx
          simp [hxid]

/-- Claim C1: writing a strictly ascending finite set of 64-bit IDs and then
reading any bit back returns true exactly for the members of the set. -/
theorem claim_c1 (S : List Nat) (hsorted : List.Pairwise (· < ·) S)
    (hrange : ∀ id ∈ S, id < 2 ^ 64) (x : Nat) :
    read_state_value (write_states S) x = decide (x ∈ S) := by
  have hmin : ∀ y ∈ S, S.headD 0 / CHUNK_SIZE_BITS ≤ y / CHUNK_SIZE_BITS := by
    intro y hy
    refine chunk_div_le ?_
    cases S with
    | nil => simp at hy
    | cons h t =>
      rw [List.pairwise_cons] at hsorted
      rcases List.mem_cons.mp hy with he | hy
      · rw [he]
        simp
      · simpa using le_of_lt (hsorted.1 y hy)
  rw [write_states,
    write_loop_read S [] (S.headD 0 / CHUNK_SIZE_BITS) [] hsorted hmin
      (fun q _ => rfl) x]
  by_cases h1 : x / CHUNK_SIZE_BITS < S.headD 0 / CHUNK_SIZE_BITS
  · rw [if_pos h1]
    have hx : x ∉ S := fun hx => absurd (hmin x hx) (by omega)
    rw [read_state_value_eq]
    simp [chunk_lookup, hx]
  · rw [if_neg h1]
    by_cases h2 : x / CHUNK_SIZE_BITS = S.headD 0 / CHUNK_SIZE_BITS
    · rw [if_pos h2, buffer_bit_nil, Bool.false_or]
    · rw [if_neg h2]

/-- Witness for C1 with the two-element set `{3, 14}` queried at 14 (present)
and at 5 (absent). -/
theorem claim_c1_witness :
    List.Pairwise (· < ·) [3, 14] ∧ (∀ id ∈ [3, 14], id < 2 ^ 64) ∧
    read_state_value (write_states [3, 14]) 14 = decide ((14 : Nat) ∈ [3, 14]) ∧
    read_state_value (write_states [3, 14]) 5 = decide ((5 : Nat) ∈ [3, 14]) :=
  ⟨by decide, by decide,
   claim_c1 [3, 14] (by decide) (by decide) 14,
   claim_c1 [3, 14] (by decide) (by decide) 5⟩

/-! ### Solver invariants (C2, C7) -/

theorem insert_subset_union_right {x : Nat} {seen rem : Finset Nat} (hx : x ∈ rem) :
    insert x seen ⊆ seen ∪ rem := by
  intro y hy
  rcases Finset.mem_insert.mp hy with he | hy
  · exact Finset.mem_union_right _ (he ▸ hx)
  · exact Finset.mem_union_left _ hy

theorem cws_subset (fuel : Nat) :
    (∀ (st : BoardState) (rem seen : Finset Nat) (r : Int) (rem2 seen2 : Finset Nat),
      cws_rec fuel st rem seen = some (r, rem2, seen2) →
      rem2 ⊆ rem ∧ seen2 ⊆ seen ∪ rem) ∧
    (∀ (st : BoardState) (piece : Nat) (ce : Int) (rem seen : Finset Nat)
      (r : Int) (rem2 seen2 : Finset Nat),
      cws_children fuel st piece ce rem seen = some (r, rem2, seen2) →
      rem2 ⊆ rem ∧ seen2 ⊆ seen ∪ rem) := by
  induction fuel with
  | zero =>
    constructor
    · intro st rem seen r rem2 seen2 h
      simp [cws_rec] at h
    · intro st piece ce rem seen r rem2 seen2 h
      simp [cws_children] at h
  | succ n ih =>
    obtain ⟨ihr, ihc⟩ := ih
    constructor
    · intro st rem seen r rem2 seen2 h
      rw [cws_rec] at h
      by_cases h1 : st.id ∉ rem
      · rw [if_pos h1] at h
        simp only [Option.some.injEq, Prod.mk.injEq] at h
        obtain ⟨-, h5, h6⟩ := h
        subst h5; subst h6
        exact ⟨Finset.Subset.refl _, Finset.subset_union_left⟩
      · rw [if_neg h1] at h
        have hx : st.id ∈ rem := not_not.mp h1
        by_cases h2 : st.id ∈ seen
        · rw [if_pos h2] at h
          simp only [Option.some.injEq, Prod.mk.injEq] at h
          obtain ⟨-, h5, h6⟩ := h
          subst h5; subst h6
          exact ⟨Finset.Subset.refl _, Finset.subset_union_left⟩
        · rw [if_neg h2] at h
          simp only at h
          by_cases h3 : is_ended st
          · rw [if_pos h3] at h
            by_cases h4 : get_next_player st = 0
            · rw [if_pos h4] at h
              simp only [Option.some.injEq, Prod.mk.injEq] at h
              obtain ⟨-, h5, h6⟩ := h
              subst h5; subst h6
              exact ⟨Finset.erase_subset _ _,
                Finset.Subset.trans (Finset.erase_subset _ _)
                  (insert_subset_union_right hx)⟩
            · rw [if_neg h4] at h
              simp only [Option.some.injEq, Prod.mk.injEq] at h
              obtain ⟨-, h5, h6⟩ := h
              subst h5; subst h6
              exact ⟨Finset.erase_subset _ _, insert_subset_union_right hx⟩
          · rw [if_neg h3] at h
            obtain ⟨hsub, hseen⟩ := ihc st 0 _ rem (insert st.id seen) r rem2 seen2 h
            exact ⟨hsub, Finset.Subset.trans hseen
              (Finset.union_subset (insert_subset_union_right hx)
                Finset.subset_union_right)⟩
    · intro st piece ce rem seen r rem2 seen2 h
      rw [cws_children] at h
      by_cases h1 : 4 < piece
      · rw [if_pos h1] at h
        simp only at h
        by_cases h2 : ce = 1 - (get_next_player st : Int)
        · rw [if_pos h2] at h
          by_cases h3 : (get_next_player st : Int) = 0
          · rw [if_pos h3] at h
            simp only [Option.some.injEq, Prod.mk.injEq] at h
            obtain ⟨-, h5, h6⟩ := h
            subst h5; subst h6
            exact ⟨Finset.erase_subset _ _,
              Finset.Subset.trans (Finset.erase_subset _ _) Finset.subset_union_left⟩
          · rw [if_neg h3] at h
            simp only [Option.some.injEq, Prod.mk.injEq] at h
            obtain ⟨-, h5, h6⟩ := h
            subst h5; subst h6
            exact ⟨Finset.erase_subset _ _, Finset.subset_union_left⟩
        · rw [if_neg h2] at h
          simp only [Option.some.injEq, Prod.mk.injEq] at h
          obtain ⟨-, h5, h6⟩ := h
          subst h5; subst h6
          exact ⟨Finset.Subset.refl _, Finset.subset_union_left⟩
      · rw [if_neg h1] at h
        cases hns : get_next_state st piece with
        | none =>
          rw [hns] at h
          simp only [] at h
          exact ihc st (piece + 1) ce rem seen r rem2 seen2 h
        | some child =>
          rw [hns] at h
          simp only [] at h
          cases hrec : cws_rec n child rem seen with
          | none =>
            rw [hrec] at h
            simp at h
          | some out =>
            obtain ⟨r1, rem1, seen1⟩ := out
            rw [hrec] at h
            simp only at h
            obtain ⟨hsub1, hseen1⟩ := ihr child rem seen r1 rem1 seen1 hrec
            have hU : seen1 ∪ rem1 ⊆ seen ∪ rem :=
              Finset.union_subset hseen1
                (Finset.Subset.trans hsub1 Finset.subset_union_right)
            by_cases h3 : r1 = -1
            · rw [if_pos h3] at h
              obtain ⟨hsub2, hseen2⟩ := ihc st (piece + 1) (-1) rem1 seen1 r rem2 seen2 h
              exact ⟨Finset.Subset.trans hsub2 hsub1,
                Finset.Subset.trans hseen2 hU⟩
            · rw [if_neg h3] at h
              by_cases h4 : r1 = (get_next_player st : Int)
              · rw [if_pos h4] at h
                by_cases h5 : (get_next_player st : Int) ≠ 0
                · rw [if_pos h5] at h
                  simp only [Option.some.injEq, Prod.mk.injEq] at h
                  obtain ⟨-, h6, h7⟩ := h
                  subst h6; subst h7
                  exact ⟨Finset.Subset.trans (Finset.erase_subset _ _) hsub1,
                    Finset.Subset.trans
                      (Finset.Subset.trans (Finset.erase_subset _ _) hseen1)
                      (Finset.Subset.refl _)⟩
                · rw [if_neg h5] at h
                  simp only [Option.some.injEq, Prod.mk.injEq] at h
                  obtain ⟨-, h6, h7⟩ := h
                  subst h6; subst h7
                  exact ⟨Finset.Subset.trans (Finset.erase_subset _ _) hsub1, hseen1⟩
              · rw [if_neg h4] at h
                obtain ⟨hsub2, hseen2⟩ := ihc st (piece + 1) ce rem1 seen1 r rem2 seen2 h
                exact ⟨Finset.Subset.trans hsub2 hsub1,
                  Finset.Subset.trans hseen2 hU⟩

theorem solver_inv_classify {R rem seen : Finset Nat} (x : Nat)
    (hinv : solver_inv R rem seen) (hterm : is_ended ⟨x⟩ = false) :
    solver_inv R (rem.erase x) (seen.erase x) ∧ solver_inv R (rem.erase x) seen := by
  obtain ⟨hr, hs, hc⟩ := hinv
  have step : ∀ seen2 : Finset Nat, seen2 ⊆ R →
      (∀ y, y ≠ x → (y ∈ seen2 ↔ y ∈ seen)) → solver_inv R (rem.erase x) seen2 := by
    intro seen2 hs2 hmem
    refine ⟨Finset.Subset.trans (Finset.erase_subset _ _) hr, hs2, ?_⟩
    intro y hyR hyend hy
    by_cases he : y = x
    · rw [he] at hyend
      rw [hyend] at hterm
      exact absurd hterm (by simp)
    · have hy2 : y ∉ rem := fun hy3 =>
        hy (Finset.mem_erase.mpr ⟨he, hy3⟩)
      rw [hmem y he]
      exact hc y hyR hyend hy2
  constructor
  · refine step _ (Finset.Subset.trans (Finset.erase_subset _ _) hs) ?_
    intro y hy
    simp [Finset.mem_erase, hy]
  · exact step seen hs (fun y _ => Iff.rfl)

theorem solver_inv_terminal {R rem seen : Finset Nat} (x : Nat)
    (hinv : solver_inv R rem seen) (hx : x ∈ rem) (hterm : is_ended ⟨x⟩ = true) :
    (get_next_player ⟨x⟩ = 0 → solver_inv R (rem.erase x) ((insert x seen).erase x)) ∧
    (get_next_player ⟨x⟩ ≠ 0 → solver_inv R (rem.erase x) (insert x seen)) := by
  obtain ⟨hr, hs, hc⟩ := hinv
  have hxR : x ∈ R := hr hx
  have hins : insert x seen ⊆ R := Finset.insert_subset hxR hs
  have hnp := get_next_player_lt_two ⟨x⟩
  constructor
  · intro hnp0
    refine ⟨Finset.Subset.trans (Finset.erase_subset _ _) hr,
      Finset.Subset.trans (Finset.erase_subset _ _) hins, ?_⟩
    intro y hyR hyend hy
    by_cases he : y = x
    · subst he
      simp only [Finset.not_mem_erase, false_iff]
      omega
    · have hy2 : y ∉ rem := fun hy3 => hy (Finset.mem_erase.mpr ⟨he, hy3⟩)
      have : y ∈ (insert x seen).erase x ↔ y ∈ seen := by
        simp [Finset.mem_erase, Finset.mem_insert, he]
      rw [this]
      exact hc y hyR hyend hy2
  · intro hnp1
    refine ⟨Finset.Subset.trans (Finset.erase_subset _ _) hr, hins, ?_⟩
    intro y hyR hyend hy
    by_cases he : y = x
    · subst he
      simp only [Finset.mem_insert, true_or, true_iff]
      omega
    · have hy2 : y ∉ rem := fun hy3 => hy (Finset.mem_erase.mpr ⟨he, hy3⟩)
      have : y ∈ insert x seen ↔ y ∈ seen := by
        simp [Finset.mem_insert, he]
      rw [this]
      exact hc y hyR hyend hy2

theorem solver_inv_insert {R rem seen : Finset Nat} (x : Nat)
    (hinv : solver_inv R rem seen) (hx : x ∈ rem) :
    solver_inv R rem (insert x seen) := by
  obtain ⟨hr, hs, hc⟩ := hinv
  refine ⟨hr, Finset.insert_subset (hr hx) hs, ?_⟩
  intro y hyR hyend hy
  have he : y ≠ x := fun he => hy (he ▸ hx)
  have : y ∈ insert x seen ↔ y ∈ seen := by simp [Finset.mem_insert, he]
  rw [this]
  exact hc y hyR hyend hy

theorem cws_inv (fuel : Nat) :
    (∀ (st : BoardState) (rem seen : Finset Nat) (r : Int) (rem2 seen2 : Finset Nat)
      (R : Finset Nat),
      cws_rec fuel st rem seen = some (r, rem2, seen2) →
      solver_inv R rem seen → solver_inv R rem2 seen2) ∧
    (∀ (st : BoardState) (piece : Nat) (ce : Int) (rem seen : Finset Nat)
      (r : Int) (rem2 seen2 : Finset Nat) (R : Finset Nat),
      is_ended st = false →
      cws_children fuel st piece ce rem seen = some (r, rem2, seen2) →
      solver_inv R rem seen → solver_inv R rem2 seen2) := by
  induction fuel with
  | zero =>
    constructor
    · intro st rem seen r rem2 seen2 R h
      simp [cws_rec] at h
    · intro st piece ce rem seen r rem2 seen2 R _ h
      simp [cws_children] at h
  | succ n ih =>
    obtain ⟨ihr, ihc⟩ := ih
    constructor
    · intro st rem seen r rem2 seen2 R h hinv
      rw [cws_rec] at h
      by_cases h1 : st.id ∉ rem
      · rw [if_pos h1] at h
        simp only [Option.some.injEq, Prod.mk.injEq] at h
        obtain ⟨-, h5, h6⟩ := h
        subst h5; subst h6
        exact hinv
      · rw [if_neg h1] at h
        have hx : st.id ∈ rem := not_not.mp h1
        by_cases h2 : st.id ∈ seen
        · rw [if_pos h2] at h
          simp only [Option.some.injEq, Prod.mk.injEq] at h
          obtain ⟨-, h5, h6⟩ := h
          subst h5; subst h6
          exact hinv
        · rw [if_neg h2] at h
          simp only at h
          by_cases h3 : is_ended st
          · rw [if_pos h3] at h
            by_cases h4 : get_next_player st = 0
            · rw [if_pos h4] at h
              simp only [Option.some.injEq, Prod.mk.injEq] at h
              obtain ⟨-, h5, h6⟩ := h
              subst h5; subst h6
              exact (solver_inv_terminal st.id hinv hx h3).1 h4
            · rw [if_neg h4] at h
              simp only [Option.some.injEq, Prod.mk.injEq] at h
              obtain ⟨-, h5, h6⟩ := h
              subst h5; subst h6
              exact (solver_inv_terminal st.id hinv hx h3).2 h4
          · rw [if_neg h3] at h
            exact ihc st 0 _ rem (insert st.id seen) r rem2 seen2 R
              (by simpa using h3) h (solver_inv_insert st.id hinv hx)
    · intro st piece ce rem seen r rem2 seen2 R hend h hinv
      rw [cws_children] at h
      by_cases h1 : 4 < piece
      · rw [if_pos h1] at h
        simp only at h
        by_cases h2 : ce = 1 - (get_next_player st : Int)
        · rw [if_pos h2] at h
          by_cases h3 : (get_next_player st : Int) = 0
          · rw [if_pos h3] at h
            simp only [Option.some.injEq, Prod.mk.injEq] at h
            obtain ⟨-, h5, h6⟩ := h
            subst h5; subst h6
            exact (solver_inv_classify st.id hinv hend).1
          · rw [if_neg h3] at h
            simp only [Option.some.injEq, Prod.mk.injEq] at h
            obtain ⟨-, h5, h6⟩ := h
            subst h5; subst h6
            exact (solver_inv_classify st.id hinv hend).2
        · rw [if_neg h2] at h
          simp only [Option.some.injEq, Prod.mk.injEq] at h
          obtain ⟨-, h5, h6⟩ := h
          subst h5; subst h6
          exact hinv
      · rw [if_neg h1] at h
        cases hns : get_next_state st piece with
        | none =>
          rw [hns] at h
          simp only [] at h
          exact ihc st (piece + 1) ce rem seen r rem2 seen2 R hend h hinv
        | some child =>
          rw [hns] at h
          simp only [] at h
          cases hrec : cws_rec n child rem seen with
          | none =>
            rw [hrec] at h
            simp at h
          | some out =>
            obtain ⟨r1, rem1, seen1⟩ := out
            rw [hrec] at h
            simp only at h
            have hinv1 : solver_inv R rem1 seen1 :=
              ihr child rem seen r1 rem1 seen1 R hrec hinv
            by_cases h3 : r1 = -1
            · rw [if_pos h3] at h
              exact ihc st (piece + 1) (-1) rem1 seen1 r rem2 seen2 R hend h hinv1
            · rw [if_neg h3] at h
              by_cases h4 : r1 = (get_next_player st : Int)
              · rw [if_pos h4] at h
                by_cases h5 : (get_next_player st : Int) ≠ 0
                · rw [if_pos h5] at h
                  simp only [Option.some.injEq, Prod.mk.injEq] at h
                  obtain ⟨-, h6, h7⟩ := h
                  subst h6; subst h7
                  exact (solver_inv_classify st.id hinv1 hend).1
                · rw [if_neg h5] at h
                  simp only [Option.some.injEq, Prod.mk.injEq] at h
                  obtain ⟨-, h6, h7⟩ := h
                  subst h6; subst h7
                  exact (solver_inv_classify st.id hinv1 hend).2
              · rw [if_neg h4] at h
                exact ihc st (piece + 1) ce rem1 seen1 r rem2 seen2 R hend h hinv1

theorem cws_scan_inv (fuel : Nat) :
    (∀ (st : BoardState) (rem seen : Finset Nat) (r : Int) (rem2 seen2 : Finset Nat),
      cws_rec fuel st rem seen = some (r, rem2, seen2) → rem2 = rem →
      scan_inv rem seen → scan_inv rem seen2) ∧
    (∀ (st : BoardState) (piece : Nat) (ce : Int) (rem seen : Finset Nat)
      (r : Int) (rem2 seen2 : Finset Nat),
      cws_children fuel st piece ce rem seen = some (r, rem2, seen2) → rem2 = rem →
      st.id ∈ rem →
      scan_inv rem seen → scan_inv rem seen2) := by
  induction fuel with
  | zero =>
    constructor
    · intro st rem seen r rem2 seen2 h
      simp [cws_rec] at h
    · intro st piece ce rem seen r rem2 seen2 h
      simp [cws_children] at h
  | succ n ih =>
    obtain ⟨ihr, ihc⟩ := ih
    constructor
    · intro st rem seen r rem2 seen2 h heq hscan
      rw [cws_rec] at h
      by_cases h1 : st.id ∉ rem
      · rw [if_pos h1] at h
        simp only [Option.some.injEq, Prod.mk.injEq] at h
        obtain ⟨-, -, h6⟩ := h
        subst h6
        exact hscan
      · rw [if_neg h1] at h
        have hx : st.id ∈ rem := not_not.mp h1
        by_cases h2 : st.id ∈ seen
        · rw [if_pos h2] at h
          simp only [Option.some.injEq, Prod.mk.injEq] at h
          obtain ⟨-, -, h6⟩ := h
          subst h6
          exact hscan
        · rw [if_neg h2] at h
          simp only at h
          by_cases h3 : is_ended st
          · rw [if_pos h3] at h
            by_cases h4 : get_next_player st = 0 <;>
              [rw [if_pos h4] at h; rw [if_neg h4] at h] <;>
              · simp only [Option.some.injEq, Prod.mk.injEq] at h
                obtain ⟨-, h5, -⟩ := h
                exfalso
                rw [← h5] at heq
                rw [← heq] at hx
                exact Finset.not_mem_erase _ _ hx
          · rw [if_neg h3] at h
            have hscan2 : scan_inv rem (insert st.id seen) := by
              intro y hy hyseen
              rcases Finset.mem_insert.mp hyseen with he | hy2
              · rw [he]
                simpa using h3
              · exact hscan y hy hy2
            exact ihc st 0 _ rem (insert st.id seen) r rem2 seen2 h heq hx hscan2
    · intro st piece ce rem seen r rem2 seen2 h heq hx hscan
      rw [cws_children] at h
      by_cases h1 : 4 < piece
      · rw [if_pos h1] at h
        simp only at h
        by_cases h2 : ce = 1 - (get_next_player st : Int)
        · rw [if_pos h2] at h
          by_cases h3 : (get_next_player st : Int) = 0 <;>
            [rw [if_pos h3] at h; rw [if_neg h3] at h] <;>
            · simp only [Option.some.injEq, Prod.mk.injEq] at h
              obtain ⟨-, h5, -⟩ := h
              exfalso
              rw [← h5] at heq
              rw [← heq] at hx
              exact Finset.not_mem_erase _ _ hx
        · rw [if_neg h2] at h
          simp only [Option.some.injEq, Prod.mk.injEq] at h
          obtain ⟨-, -, h6⟩ := h
          subst h6
          exact hscan
      · rw [if_neg h1] at h
        cases hns : get_next_state st piece with
        | none =>
          rw [hns] at h
          simp only [] at h
          exact ihc st (piece + 1) ce rem seen r rem2 seen2 h heq hx hscan
        | some child =>
          rw [hns] at h
          simp only [] at h
          cases hrec : cws_rec n child rem seen with
          | none =>
            rw [hrec] at h
            simp at h
          | some out =>
            obtain ⟨r1, rem1, seen1⟩ := out
            rw [hrec] at h
            simp only at h
            have hsub1 : rem1 ⊆ rem := ((cws_subset n).1 child rem seen r1 rem1 seen1 hrec).1
            by_cases h3 : r1 = -1
            · rw [if_pos h3] at h
              have hsub2 : rem2 ⊆ rem1 := ((cws_subset n).2 st (piece + 1) (-1) rem1 seen1 r rem2 seen2 h).1
              have hrem1 : rem1 = rem :=
                Finset.Subset.antisymm hsub1 (heq ▸ hsub2)
              subst hrem1
              have hscan1 : scan_inv rem1 seen1 :=
                ihr child rem1 seen r1 rem1 seen1 hrec rfl hscan
              exact ihc st (piece + 1) (-1) rem1 seen1 r rem2 seen2 h heq hx hscan1
            · rw [if_neg h3] at h
              by_cases h4 : r1 = (get_next_player st : Int)
              · rw [if_pos h4] at h
                by_cases h5 : (get_next_player st : Int) ≠ 0 <;>
                  [rw [if_pos h5] at h; rw [if_neg h5] at h] <;>
                  · simp only [Option.some.injEq, Prod.mk.injEq] at h
                    obtain ⟨-, h6, -⟩ := h
                    exfalso
                    rw [← h6] at heq
                    rw [← heq] at hx
                    exact Finset.not_mem_erase _ _ hx
              · rw [if_neg h4] at h
                have hsub2 : rem2 ⊆ rem1 := ((cws_subset n).2 st (piece + 1) ce rem1 seen1 r rem2 seen2 h).1
                have hrem1 : rem1 = rem :=
                  Finset.Subset.antisymm hsub1 (heq ▸ hsub2)
                subst hrem1
                have hscan1 : scan_inv rem1 seen1 :=
                  ihr child rem1 seen r1 rem1 seen1 hrec rfl hscan
                exact ihc st (piece + 1) ce rem1 seen1 r rem2 seen2 h heq hx hscan1

theorem cws_rec_terminal_removed (fuel : Nat) (st : BoardState)
    (rem seen : Finset Nat) (r : Int) (rem2 seen2 : Finset Nat)
    (h : cws_rec fuel st rem seen = some (r, rem2, seen2))
    (hx : st.id ∈ rem) (hs : st.id ∉ seen) (hend : is_ended st = true) :
    st.id ∉ rem2 := by
  cases fuel with
  | zero => simp [cws_rec] at h
  | succ n =>
    rw [cws_rec, if_neg (not_not.mpr hx), if_neg hs] at h
    simp only at h
    rw [if_pos hend] at h
    by_cases h4 : get_next_player st = 0 <;>
      [rw [if_pos h4] at h; rw [if_neg h4] at h] <;>
      · simp only [Option.some.injEq, Prod.mk.injEq] at h
        obtain ⟨-, h5, -⟩ := h
        rw [← h5]
        exact Finset.not_mem_erase _ _

theorem fold_option_min_spec (s : Finset Nat) :
    (s.fold option_min none some = none → s = ∅) ∧
    (∀ a, s.fold option_min none some = some a → a ∈ s ∧ ∀ y ∈ s, a ≤ y) := by
  induction s using Finset.induction_on with
  | empty => simp
  | insert hx ih =>
    next x s =>
    rw [Finset.fold_insert hx]
    constructor
    · intro h
      cases hs : s.fold option_min none some with
      | none => rw [hs] at h; simp [option_min] at h
      | some b => rw [hs] at h; simp [option_min] at h
    · intro a ha
      cases hs : s.fold option_min none some with
      | none =>
        rw [hs] at ha
        simp only [option_min, Option.some.injEq] at ha
        subst ha
        have hse : s = ∅ := ih.1 hs
        subst hse
        simp
      | some b =>
        rw [hs] at ha
        simp only [option_min, Option.some.injEq] at ha
        obtain ⟨hb_mem, hb_min⟩ := ih.2 b hs
        subst ha
        constructor
        · rcases Nat.le_total x b with hle | hle
          · rw [Nat.min_eq_left hle]
            exact Finset.mem_insert_self x s
          · rw [Nat.min_eq_right hle]
            exact Finset.mem_insert_of_mem hb_mem
        · intro y hy
          rcases Finset.mem_insert.mp hy with he | hy2
          · exact he ▸ Nat.min_le_left x b
          · exact le_trans (le_trans (Nat.min_le_right x b) (hb_min y hy2))
              (le_refl y)

theorem treemap_next_value_none {rem : Finset Nat} {lo : Nat}
    (h : treemap_next_value rem lo = none) : ∀ y ∈ rem, ¬ lo ≤ y := by
  intro y hy hle
  rw [treemap_next_value] at h
  have := (fold_option_min_spec _).1 h
  have hmem : y ∈ rem.filter (fun x => lo ≤ x) :=
    Finset.mem_filter.mpr ⟨hy, by simpa using hle⟩
  rw [this] at hmem
  simp at hmem

theorem treemap_next_value_some {rem : Finset Nat} {lo state_id : Nat}
    (h : treemap_next_value rem lo = some state_id) :
    state_id ∈ rem ∧ lo ≤ state_id ∧ ∀ y ∈ rem, lo ≤ y → state_id ≤ y := by
  rw [treemap_next_value] at h
  obtain ⟨hmem, hmin⟩ := (fold_option_min_spec _).2 state_id h
  rw [Finset.mem_filter] at hmem
  refine ⟨hmem.1, by simpa using hmem.2, ?_⟩
  intro y hy hle
  exact hmin y (Finset.mem_filter.mpr ⟨hy, by simpa using hle⟩)

theorem scan_remaining_subset (fuel : Nat) :
    ∀ (rec_fuel lo : Nat) (rem seen rem2 seen2 : Finset Nat),
      scan_remaining fuel rec_fuel lo rem seen = some (rem2, seen2) →
      rem2 ⊆ rem := by
  induction fuel with
  | zero =>
    intro rec_fuel lo rem seen rem2 seen2 h
    simp [scan_remaining] at h
  | succ n ih =>
    intro rec_fuel lo rem seen rem2 seen2 h
    rw [scan_remaining] at h
    cases hnv : treemap_next_value rem lo with
    | none =>
      rw [hnv] at h
      simp only [Option.some.injEq, Prod.mk.injEq] at h
      obtain ⟨h1, -⟩ := h
      subst h1
      exact Finset.Subset.refl _
    | some state_id =>
      rw [hnv] at h
      simp only [] at h
      cases hrec : cws_rec rec_fuel ⟨state_id⟩ rem seen with
      | none => rw [hrec] at h; simp at h
      | some out =>
        obtain ⟨r1, rem1, seen1⟩ := out
        rw [hrec] at h
        simp only at h
        exact Finset.Subset.trans (ih rec_fuel (state_id + 1) rem1 seen1 rem2 seen2 h)
          ((cws_subset rec_fuel).1 _ rem seen r1 rem1 seen1 hrec).1

theorem scan_remaining_inv (fuel : Nat) :
    ∀ (rec_fuel lo : Nat) (rem seen rem2 seen2 R : Finset Nat),
      scan_remaining fuel rec_fuel lo rem seen = some (rem2, seen2) →
      solver_inv R rem seen → solver_inv R rem2 seen2 := by
  induction fuel with
  | zero =>
    intro rec_fuel lo rem seen rem2 seen2 R h
    simp [scan_remaining] at h
  | succ n ih =>
    intro rec_fuel lo rem seen rem2 seen2 R h hinv
    rw [scan_remaining] at h
    cases hnv : treemap_next_value rem lo with
    | none =>
      rw [hnv] at h
      simp only [Option.some.injEq, Prod.mk.injEq] at h
      obtain ⟨h1, h2⟩ := h
      subst h1; subst h2
      exact hinv
    | some state_id =>
      rw [hnv] at h
      simp only [] at h
      cases hrec : cws_rec rec_fuel ⟨state_id⟩ rem seen with
      | none => rw [hrec] at h; simp at h
      | some out =>
        obtain ⟨r1, rem1, seen1⟩ := out
        rw [hrec] at h
        simp only at h
        exact ih rec_fuel (state_id + 1) rem1 seen1 rem2 seen2 R h
          ((cws_inv rec_fuel).1 _ rem seen r1 rem1 seen1 R hrec hinv)

theorem scan_remaining_no_terminal (fuel : Nat) :
    ∀ (rec_fuel lo : Nat) (rem seen rem2 seen2 : Finset Nat),
      scan_remaining fuel rec_fuel lo rem seen = some (rem2, seen2) →
      rem.card ≤ rem2.card →
      scan_inv rem seen →
      ∀ x ∈ rem2, lo ≤ x → is_ended ⟨x⟩ = false := by
  induction fuel with
  | zero =>
    intro rec_fuel lo rem seen rem2 seen2 h
    simp [scan_remaining] at h
  | succ n ih =>
    intro rec_fuel lo rem seen rem2 seen2 h hcard hscan x hx hlo
    rw [scan_remaining] at h
    cases hnv : treemap_next_value rem lo with
    | none =>
      rw [hnv] at h
      simp only [Option.some.injEq, Prod.mk.injEq] at h
      obtain ⟨h1, -⟩ := h
      subst h1
      exact absurd hlo (treemap_next_value_none hnv x hx)
    | some state_id =>
      rw [hnv] at h
      simp only [] at h
      cases hrec : cws_rec rec_fuel ⟨state_id⟩ rem seen with
      | none => rw [hrec] at h; simp at h
      | some out =>
        obtain ⟨r1, rem1, seen1⟩ := out
        rw [hrec] at h
        simp only at h
        obtain ⟨hid_mem, hid_lo, hid_min⟩ := treemap_next_value_some hnv
        have hsub2 : rem2 ⊆ rem1 := scan_remaining_subset n rec_fuel (state_id + 1) rem1 seen1 rem2 seen2 h
        have hsub1 : rem1 ⊆ rem := ((cws_subset rec_fuel).1 _ rem seen r1 rem1 seen1 hrec).1
        have hc1 : rem1.card ≤ rem.card := Finset.card_le_card hsub1
        have hc2 : rem2.card ≤ rem1.card := Finset.card_le_card hsub2
        have hrem1 : rem1 = rem := Finset.eq_of_subset_of_card_le hsub1 (by omega)
        subst hrem1
        have hscan1 : scan_inv rem1 seen1 :=
          (cws_scan_inv rec_fuel).1 _ rem1 seen r1 rem1 seen1 hrec rfl hscan
        by_cases hxid : x = state_id
        · subst hxid
          by_cases hseen : x ∈ seen
          · exact hscan x hid_mem hseen
          · by_contra hne
            have hend : is_ended (⟨x⟩ : BoardState) = true := by
              cases hb : is_ended (⟨x⟩ : BoardState)
              · exact absurd hb hne
              · rfl
            exact cws_rec_terminal_removed rec_fuel ⟨x⟩ rem1 seen r1 rem1 seen1
              hrec hid_mem hseen hend (hsub2 hx)
        · have hgt : state_id + 1 ≤ x := by
            have := hid_min x (hsub2 hx) hlo
            omega
          exact ih rec_fuel (state_id + 1) rem1 seen1 rem2 seen2 h (by omega)
            hscan1 x hx hgt

theorem solver_inv_cleanup {R rem seen : Finset Nat} (hinv : solver_inv R rem seen) :
    solver_inv R rem (seen \ rem) := by
  obtain ⟨hr, hs, hc⟩ := hinv
  refine ⟨hr, Finset.Subset.trans (Finset.sdiff_subset) hs, ?_⟩
  intro y hyR hyend hy
  rw [Finset.mem_sdiff]
  rw [← hc y hyR hyend hy]
  exact ⟨fun h => h.1, fun h => ⟨h, hy⟩⟩

theorem collect_winning_states_spec (iterF : Nat) :
    ∀ (scanF recF prevLen : Nat) (rem w0 R w0f Df : Finset Nat),
      collect_winning_states iterF scanF recF prevLen rem w0 = some (w0f, Df) →
      solver_inv R rem w0 →
      (∀ y ∈ w0, y ∉ rem) →
      prevLen = rem.card →
      Df ⊆ R ∧ w0f ⊆ R ∧ (∀ y ∈ w0f, y ∉ Df) ∧
        (∀ x, is_ended ⟨x⟩ = true → x ∉ Df) ∧
        (∀ x ∈ R, is_ended ⟨x⟩ = true → (x ∈ w0f ↔ get_next_player ⟨x⟩ = 1)) := by
  induction iterF with
  | zero =>
    intro scanF recF prevLen rem w0 R w0f Df h
    simp [collect_winning_states] at h
  | succ n ih =>
    intro scanF recF prevLen rem w0 R w0f Df h hinv hdisj hprev
    rw [collect_winning_states] at h
    cases hp : collect_winning_pass scanF recF rem w0 with
    | none => rw [hp] at h; simp at h
    | some out =>
      obtain ⟨rem1, w01⟩ := out
      rw [hp] at h
      simp only at h
      rw [collect_winning_pass] at hp
      cases hscan : scan_remaining scanF recF 0 rem w0 with
      | none => rw [hscan] at hp; simp at hp
      | some out2 =>
        obtain ⟨rem1', seen1⟩ := out2
        rw [hscan] at hp
        simp only [Option.some.injEq, Prod.mk.injEq] at hp
        obtain ⟨hp1, hp2⟩ := hp
        subst hp1
        subst hp2
        have hsub : rem1' ⊆ rem := scan_remaining_subset scanF recF 0 rem w0 rem1' seen1 hscan
        have hinv1 : solver_inv R rem1' seen1 :=
          scan_remaining_inv scanF recF 0 rem w0 rem1' seen1 R hscan hinv
        have hinv2 : solver_inv R rem1' (seen1 \ rem1') := solver_inv_cleanup hinv1
        have hdisj1 : ∀ y ∈ seen1 \ rem1', y ∉ rem1' := by
          intro y hy
          exact (Finset.mem_sdiff.mp hy).2
        by_cases hbreak : prevLen - rem1'.card = 0
        · rw [if_pos hbreak] at h
          simp only [Option.some.injEq, Prod.mk.injEq] at h
          obtain ⟨h1, h2⟩ := h
          subst h1
          subst h2
          have hcard : rem.card ≤ rem1'.card := by
            have := Finset.card_le_card hsub
            omega
          have hscaninv : scan_inv rem w0 := by
            intro y hyrem hyseen
            exact absurd hyrem (hdisj y hyseen)
          have hnoterm := scan_remaining_no_terminal scanF recF 0 rem w0 rem1' seen1
            hscan hcard hscaninv
          refine ⟨hinv2.1, hinv2.2.1, hdisj1, ?_, ?_⟩
          · intro x hxend hxin
            have := hnoterm x hxin (Nat.zero_le x)
            rw [hxend] at this
            exact absurd this (by simp)
          · intro x hxR hxend
            have hxnot : x ∉ rem1' := by
              intro hxin
              have := hnoterm x hxin (Nat.zero_le x)
              rw [hxend] at this
              exact absurd this (by simp)
            rw [← hinv1.2.2 x hxR hxend hxnot]
            rw [Finset.mem_sdiff]
            exact ⟨fun h => h.1, fun h => ⟨h, hxnot⟩⟩
        · rw [if_neg hbreak] at h
          exact ih scanF recF rem1'.card rem1' (seen1 \ rem1') R w0f Df h
            hinv2 hdisj1 rfl

/-- Claim C2: after `generate` completes, the player-0 wins, player-1 wins and
draw sets are pairwise disjoint and their union is the reachable universe. -/
theorem claim_c2 (reach_fuel iter_fuel scan_fuel rec_fuel : Nat)
    (init_states : List BoardState) (R W0 W1 D : Finset Nat)
    (h : generate reach_fuel iter_fuel scan_fuel rec_fuel init_states =
      some (R, W0, W1, D)) :
    Disjoint W0 W1 ∧ Disjoint W0 D ∧ Disjoint W1 D ∧ W0 ∪ W1 ∪ D = R := by
  rw [generate] at h
  cases hr : collect_reachable_states reach_fuel init_states ∅ with
  | none => rw [hr] at h; simp at h
  | some reach =>
    rw [hr] at h
    simp only [] at h
    cases hw : collect_winning_states iter_fuel scan_fuel rec_fuel
        reach.card reach ∅ with
    | none => rw [hw] at h; simp at h
    | some out =>
      obtain ⟨w0, draws⟩ := out
      rw [hw] at h
      simp only [Option.some.injEq, Prod.mk.injEq] at h
      obtain ⟨h1, h2, h3, h4⟩ := h
      subst h1; subst h2; subst h3; subst h4
      have hinv0 : solver_inv reach reach ∅ :=
        ⟨Finset.Subset.refl _, Finset.empty_subset _,
         fun x hx _ hnot => absurd hx hnot⟩
      obtain ⟨hD_sub, hW0_sub, hdisjW0D, -, -⟩ :=
        collect_winning_states_spec iter_fuel scan_fuel rec_fuel
          reach.card reach ∅ reach w0 draws hw hinv0 (by simp) rfl
      refine ⟨?_, ?_, ?_, ?_⟩
      · rw [Finset.disjoint_left]
        intro a ha hb
        rw [Finset.mem_sdiff] at hb
        exact hb.2 (Finset.mem_union_right _ ha)
      · rw [Finset.disjoint_left]
        exact fun a ha hb => hdisjW0D a ha hb
      · rw [Finset.disjoint_left]
        intro a ha hb
        rw [Finset.mem_sdiff] at ha
        exact ha.2 (Finset.mem_union_left _ hb)
      · apply Finset.ext
        intro a
        simp only [Finset.mem_union, Finset.mem_sdiff]
        constructor
        · intro hmem
          rcases hmem with (ha | ha) | ha
          · exact hW0_sub ha
          · exact ha.1
          · exact hD_sub ha
        · intro ha
          by_cases hw0 : a ∈ w0
          · exact Or.inl (Or.inl hw0)
          · by_cases hd : a ∈ draws
            · exact Or.inr hd
            · refine Or.inl (Or.inr ⟨ha, ?_⟩)
              intro hmem
              rcases hmem with h5 | h5
              · exact hd h5
              · exact hw0 h5


/-- Witness for C2 on the endgame seed 100382226046 (reachable set of three
states, all winning for player 0). -/
theorem claim_c2_witness :
    generate 20 20 20 20 [⟨100382226046⟩] =
      some ({100382229503, 100442443391, 100382226046},
        {100382229503, 100442443391, 100382226046}, ∅, ∅) ∧
    (Disjoint ({100382229503, 100442443391, 100382226046} : Finset Nat)
        (∅ : Finset Nat) ∧
      Disjoint ({100382229503, 100442443391, 100382226046} : Finset Nat)
        (∅ : Finset Nat) ∧
      Disjoint (∅ : Finset Nat) (∅ : Finset Nat) ∧
      ({100382229503, 100442443391, 100382226046} : Finset Nat) ∪ ∅ ∪ ∅ =
        {100382229503, 100442443391, 100382226046}) :=
  ⟨rfl, claim_c2 20 20 20 20 [⟨100382226046⟩]
    {100382229503, 100442443391, 100382226046}
    {100382229503, 100442443391, 100382226046} ∅ ∅ rfl⟩

/-- Claim C7: every reachable terminal state with next player 0 is classified
into W1 and every reachable terminal state with next player 1 into W0. -/
theorem claim_c7 (reach_fuel iter_fuel scan_fuel rec_fuel : Nat)
    (init_states : List BoardState) (R W0 W1 D : Finset Nat)
    (h : generate reach_fuel iter_fuel scan_fuel rec_fuel init_states =
      some (R, W0, W1, D))
    (x : Nat) (hx : x ∈ R) (hend : is_ended ⟨x⟩ = true) :
    (get_next_player ⟨x⟩ = 0 → x ∈ W1) ∧ (get_next_player ⟨x⟩ = 1 → x ∈ W0) := by
  rw [generate] at h
  cases hr : collect_reachable_states reach_fuel init_states ∅ with
  | none => rw [hr] at h; simp at h
  | some reach =>
    rw [hr] at h
    simp only [] at h
    cases hw : collect_winning_states iter_fuel scan_fuel rec_fuel
        reach.card reach ∅ with
    | none => rw [hw] at h; simp at h
    | some out =>
      obtain ⟨w0, draws⟩ := out
      rw [hw] at h
      simp only [Option.some.injEq, Prod.mk.injEq] at h
      obtain ⟨h1, h2, h3, h4⟩ := h
      subst h1; subst h2; subst h3; subst h4
      have hinv0 : solver_inv reach reach ∅ :=
        ⟨Finset.Subset.refl _, Finset.empty_subset _,
         fun y hy _ hnot => absurd hy hnot⟩
      obtain ⟨-, -, -, hterm_out, hterm_w0⟩ :=
        collect_winning_states_spec iter_fuel scan_fuel rec_fuel
          reach.card reach ∅ reach w0 draws hw hinv0 (by simp) rfl
      have hxD : x ∉ draws := hterm_out x hend
      have hxW0 : x ∈ w0 ↔ get_next_player ⟨x⟩ = 1 := hterm_w0 x hx hend
      constructor
      · intro hnp0
        rw [Finset.mem_sdiff]
        refine ⟨hx, ?_⟩
        intro hmem
        rcases Finset.mem_union.mp hmem with h5 | h5
        · exact hxD h5
        · rw [hxW0] at h5
          omega
      · intro hnp1
        exact hxW0.mpr hnp1

/-- Witness for C7 at the terminal state 100382229503 (next player 1) of the
endgame seed 100382226046. -/
theorem claim_c7_witness :
    generate 20 20 20 20 [⟨100382226046⟩] =
      some ({100382229503, 100442443391, 100382226046},
        {100382229503, 100442443391, 100382226046}, ∅, ∅) ∧
    (100382229503 : Nat) ∈ ({100382229503, 100442443391, 100382226046} : Finset Nat) ∧
    is_ended ⟨100382229503⟩ = true ∧
    ((get_next_player ⟨100382229503⟩ = 0 → (100382229503 : Nat) ∈ (∅ : Finset Nat)) ∧
     (get_next_player ⟨100382229503⟩ = 1 →
       (100382229503 : Nat) ∈
         ({100382229503, 100442443391, 100382226046} : Finset Nat))) :=
  ⟨rfl, by decide, by decide,
   claim_c7 20 20 20 20 [⟨100382226046⟩]
     {100382229503, 100442443391, 100382226046}
     {100382229503, 100442443391, 100382226046} ∅ ∅ rfl
     100382229503 (by decide) (by decide)⟩
